import Mathlib

/-!
Shallow embedding of the incremental ledger-entry aggregation engine of
`tequdev/ledger-entry-visualization` (`src/App.tsx`): the effect extractor,
the ledger accumulator (`lastNodes` mutated by `transactionHandler`), the
publication step (`ledgerClosedHandler` / `setNodes`) and the entry-type
classifier (`nodesByLedgerEntryType`), together with proofs of the spec's
claims about them.
-/

namespace LedgerViz

/-- One accumulated effect record, as stored in the three collections of
`lastNodes`: the entry-type name and the ledger-entry identity (`index`). -/
structure EntryRec where
  LedgerEntryType : String
  index : String
deriving DecidableEq, Repr

/-- One affected node of a transaction's metadata, tagged with its kind.
Every kind carries an entry-type name and the entry identity (the
`LedgerIndex` field of the corresponding node object in the stream). -/
inductive AffectedNode where
  | createdNode (LedgerEntryType LedgerIndex : String)
  | modifiedNode (LedgerEntryType LedgerIndex : String)
  | deletedNode (LedgerEntryType LedgerIndex : String)
deriving DecidableEq, Repr

/-- Predicate `isCreatedNode` of `xrpl/dist/npm/models`. -/
def isCreatedNode : AffectedNode → Bool
  | .createdNode _ _ => true
  | _ => false

/-- Predicate `isModifiedNode` of `xrpl/dist/npm/models`. -/
def isModifiedNode : AffectedNode → Bool
  | .modifiedNode _ _ => true
  | _ => false

/-- Predicate `isDeletedNode` of `xrpl/dist/npm/models`. -/
def isDeletedNode : AffectedNode → Bool
  | .deletedNode _ _ => true
  | _ => false

/-- Projection of an affected node to the stored record
`{ LedgerEntryType: ..., index: ....LedgerIndex }`; every kind carries the
same two payload fields, so the source's three per-kind mapping lambdas
(`value.CreatedNode.LedgerEntryType` etc.) all project this shape. -/
def nodeFields : AffectedNode → EntryRec
  | .createdNode t i => ⟨t, i⟩
  | .modifiedNode t i => ⟨t, i⟩
  | .deletedNode t i => ⟨t, i⟩

/-- Transaction metadata: the ordered affected-node list. -/
structure TxMeta where
  AffectedNodes : List AffectedNode
deriving DecidableEq, Repr

/-- A transaction event of the stream: the carried ledger index and the
optional metadata (`tx.meta` may be absent). -/
structure TransactionStream where
  ledger_index : Int
  meta : Option TxMeta
deriving DecidableEq, Repr

/-- A ledger-closed event of the stream, carrying the index of the
newly-open ledger. -/
structure LedgerStream where
  ledger_index : Int
deriving DecidableEq, Repr

/-- The accumulator object `lastNodes` (also the shape of the `nodes`
React state): the current ledger index and the three effect collections. -/
structure Snapshot where
  ledgerIndex : Int
  created : List EntryRec
  modified : List EntryRec
  deleted : List EntryRec
deriving DecidableEq, Repr

/-- The initial accumulator value `{ ledgerIndex: 0, created: [], modified: [],
deleted: [] }`. -/
def initialSnapshot : Snapshot :=
  { ledgerIndex := 0, created := [], modified := [], deleted := [] }

/-- One `Map.set` step of `new Map(nodes.map(node => [node.index, node]))`:
an existing key keeps its position and gets the new value; a new key is
appended. -/
def insertNode (m : List (String × EntryRec)) (node : EntryRec) :
    List (String × EntryRec) :=
  if m.any (fun p => p.1 = node.index) then
    m.map (fun p => if p.1 = node.index then (node.index, node) else p)
  else
    m ++ [(node.index, node)]

/-- `uniqNodes` of `src/App.tsx`:
`Array.from(new Map(nodes.map(node => [node.index, node])).values())`.
The JS `Map` is built by inserting the `[index, node]` pairs left to right
(`insertNode`), and `values()` yields the values in key-insertion order. -/
def uniqNodes (nodes : List EntryRec) : List EntryRec :=
  (nodes.foldl insertNode []).map Prod.snd

/-- The created-effect list extracted from a transaction's metadata:
`tx.meta.AffectedNodes.filter(isCreatedNode)` mapped to
`{ LedgerEntryType, index: LedgerIndex }`. -/
def extractCreated (m : TxMeta) : List EntryRec :=
  (m.AffectedNodes.filter isCreatedNode).map nodeFields

/-- The modified-effect list extracted from a transaction's metadata. -/
def extractModified (m : TxMeta) : List EntryRec :=
  (m.AffectedNodes.filter isModifiedNode).map nodeFields

/-- The deleted-effect list extracted from a transaction's metadata. -/
def extractDeleted (m : TxMeta) : List EntryRec :=
  (m.AffectedNodes.filter isDeletedNode).map nodeFields

/-- `transactionHandler` of `src/App.tsx`, as a state transformer on the
accumulator `lastNodes`: early return when `tx.meta` is absent; otherwise
set `ledgerIndex = tx.ledger_index` unconditionally, clear the three
collections when the carried index is strictly greater than the stored one
(`newNode`), push the extracted effects, and deduplicate each collection
with `uniqNodes`. -/
def transactionHandler (tx : TransactionStream) (lastNodes : Snapshot) :
    Snapshot :=
  match tx.meta with
  | none => lastNodes
  | some meta =>
    let createdNodes := extractCreated meta
    let modifiedNodes := extractModified meta
    let deletedNodess := extractDeleted meta
    let currentIndex := tx.ledger_index
    let newNode := lastNodes.ledgerIndex < currentIndex
    let base : Snapshot :=
      if newNode then
        { ledgerIndex := currentIndex, created := [], modified := [],
          deleted := [] }
      else
        { lastNodes with ledgerIndex := currentIndex }
    { ledgerIndex := currentIndex
      created := uniqNodes (base.created ++ createdNodes)
      modified := uniqNodes (base.modified ++ modifiedNodes)
      deleted := uniqNodes (base.deleted ++ deletedNodess) }

/-- The component state of `App` that the two stream handlers touch: the
`ledgerIndex` React state (initially `undefined`), the `nodes` React state,
and the single mutable accumulator object `lastNodes`. JS object-reference
semantics is made explicit: `setNodes(lastNodes)` stores a reference to the
one `lastNodes` object (never a copy), recorded by `nodesIsAlias`; the
value observed through the `nodes` state is `nodesValue` below. -/
structure AppState where
  ledgerIndex : Option Int
  nodesState : Snapshot
  nodesIsAlias : Bool
  lastNodes : Snapshot
deriving DecidableEq, Repr

/-- The initial component state: `ledgerIndex` undefined, `nodes` the fresh
initial object, `lastNodes` the fresh accumulator, no alias yet. -/
def initialAppState : AppState :=
  { ledgerIndex := none
    nodesState := initialSnapshot
    nodesIsAlias := false
    lastNodes := initialSnapshot }

/-- The snapshot observed by reading the `nodes` React state: once
`setNodes(lastNodes)` has run, the state aliases the accumulator object, so
reads see the accumulator's current contents. -/
def nodesValue (s : AppState) : Snapshot :=
  if s.nodesIsAlias then s.lastNodes else s.nodesState

/-- `ledgerClosedHandler` of `src/App.tsx`:
`setLedgerIndex(ledger.ledger_index - 1); setNodes(lastNodes)`. It stores
the reported index minus one and publishes the accumulator by reference;
it does not touch `lastNodes` itself. -/
def ledgerClosedHandler (ledger : LedgerStream) (s : AppState) : AppState :=
  { s with
    ledgerIndex := some (ledger.ledger_index - 1)
    nodesIsAlias := true }

/-- A transaction event at the component level: it only mutates the
accumulator object `lastNodes`, via `transactionHandler`. -/
def appOnTransaction (tx : TransactionStream) (s : AppState) : AppState :=
  { s with lastNodes := transactionHandler tx s.lastNodes }

/-- The classifier's result shape: the three filtered effect lists. -/
structure EffectTriple where
  created : List EntryRec
  modified : List EntryRec
  deleted : List EntryRec
deriving DecidableEq, Repr

/-- `nodesByLedgerEntryType` of `src/App.tsx`: filter each of the three
collections of the snapshot by `LedgerEntryType === entry`. -/
def nodesByLedgerEntryType (nodes : Snapshot) (entry : String) : EffectTriple :=
  { created := nodes.created.filter (fun node => node.LedgerEntryType = entry)
    modified := nodes.modified.filter (fun node => node.LedgerEntryType = entry)
    deleted := nodes.deleted.filter (fun node => node.LedgerEntryType = entry) }

/-- The last record of `l` whose identity is `k`, if any: the value that
last-write-wins deduplication keeps for key `k`. -/
def lastWith (l : List EntryRec) (k : String) : Option EntryRec :=
  (l.filter (fun n => n.index = k)).getLast?

/-- The key list deduplicated by first occurrence: each key appears once,
at the position of its first occurrence in the input. -/
def firstKeys : List String → List String
  | [] => []
  | k :: ks => k :: firstKeys (ks.filter (fun x => x ≠ k))
termination_by l => l.length
decreasing_by
  simp only [List.length_cons]
  exact Nat.lt_succ_of_le (List.length_filter_le _ _)

/-- Recursive reference form of last-write-wins deduplication by `index`:
keep, at the position of each first occurrence, the last record carrying
that identity, and recurse on the records with other identities. -/
def dedupByIndex : List EntryRec → List EntryRec
  | [] => []
  | x :: xs =>
    (xs.filter (fun y => y.index = x.index)).getLastD x ::
      dedupByIndex (xs.filter (fun y => y.index ≠ x.index))
termination_by l => l.length
decreasing_by
  simp only [List.length_cons]
  exact Nat.lt_succ_of_le (List.length_filter_le _ _)

/-- The keys of the association list built while folding `insertNode`. -/
def keysOf (m : List (String × EntryRec)) : List String := m.map Prod.fst

/-- The association list after updating every key's value to the last
matching record of `l` (default: the present value). -/
def updAcc (m : List (String × EntryRec)) (l : List EntryRec) :
    List (String × EntryRec) :=
  m.map (fun p => (p.1, (l.filter (fun n => n.index = p.1)).getLastD p.2))

theorem getLastD_index : ∀ (t : List EntryRec) (d : EntryRec) (k : String),
    (∀ y ∈ t, y.index = k) → d.index = k → (t.getLastD d).index = k
  | [], _, _, _, hd => hd
  | a :: t, _, k, ht, _ => by
    rw [List.getLastD_cons]
    exact getLastD_index t a k (fun y hy => ht y (List.mem_cons_of_mem _ hy))
      (ht a (List.mem_cons_self _ _))

theorem dedupByIndex_nil : dedupByIndex [] = [] := by
  simp [dedupByIndex]

theorem dedupByIndex_cons (x : EntryRec) (xs : List EntryRec) :
    dedupByIndex (x :: xs) =
      (xs.filter (fun y => y.index = x.index)).getLastD x ::
        dedupByIndex (xs.filter (fun y => y.index ≠ x.index)) := by
  simp [dedupByIndex]

theorem firstKeys_nil : firstKeys [] = [] := by
  simp [firstKeys]

theorem firstKeys_cons (k : String) (ks : List String) :
    firstKeys (k :: ks) = k :: firstKeys (ks.filter (fun x => x ≠ k)) := by
  simp [firstKeys]

theorem foldl_insertNode (l : List EntryRec) :
    ∀ m : List (String × EntryRec),
      l.foldl insertNode m =
        updAcc m l ++
          (dedupByIndex (l.filter (fun n => n.index ∉ keysOf m))).map
            (fun n => (n.index, n)) := by
  induction l with
  | nil =>
    intro m
    simp [updAcc, dedupByIndex_nil]
  | cons x xs ih =>
    intro m
    rw [List.foldl_cons]
    by_cases hx : x.index ∈ keysOf m
    · have hany : m.any (fun p => p.1 = x.index) = true := by
        simp only [keysOf, List.mem_map] at hx
        obtain ⟨p, hp, hpk⟩ := hx
        exact List.any_eq_true.mpr ⟨p, hp, by simp [hpk]⟩
      have hins : insertNode m x =
          m.map (fun p => if p.1 = x.index then (x.index, x) else p) := by
        simp [insertNode, hany]
      have hkeys : keysOf (m.map
          (fun p => if p.1 = x.index then (x.index, x) else p)) = keysOf m := by
        simp only [keysOf, List.map_map]
        apply List.map_congr_left
        intro p _
        by_cases h : p.1 = x.index <;> simp [Function.comp, h]
      have hupd : updAcc (m.map
            (fun p => if p.1 = x.index then (x.index, x) else p)) xs =
          updAcc m (x :: xs) := by
        simp only [updAcc, List.map_map]
        apply List.map_congr_left
        intro p _
        by_cases h : p.1 = x.index
        · simp only [Function.comp_apply]
          rw [if_pos h, h, List.filter_cons_of_pos (by simp),
            List.getLastD_cons]
        · have h' : ¬ (x.index = p.1) := fun e => h e.symm
          simp only [Function.comp_apply]
          rw [if_neg h, List.filter_cons_of_neg (by simp [h'])]
      have hfilt : (x :: xs).filter (fun n => n.index ∉ keysOf m) =
          xs.filter (fun n => n.index ∉ keysOf m) := by
        simp [List.filter_cons, hx]
      rw [hins, ih, hkeys, hupd, hfilt]
    · have hany : m.any (fun p => p.1 = x.index) = false := by
        simp only [keysOf, List.mem_map] at hx
        push_neg at hx
        simp only [List.any_eq_false]
        intro p hp
        simp [hx p hp]
      have hins : insertNode m x = m ++ [(x.index, x)] := by
        simp [insertNode, hany]
      have hkeys2 : keysOf (m ++ [(x.index, x)]) = keysOf m ++ [x.index] := by
        simp [keysOf]
      have hLeft : updAcc m xs = updAcc m (x :: xs) := by
        apply List.map_congr_left
        intro p hp
        have hp1 : ¬ (x.index = p.1) := by
          intro e
          exact hx (e ▸ List.mem_map.mpr ⟨p, hp, rfl⟩)
        rw [List.filter_cons_of_neg (by simp [hp1])]
      have hupd2 : updAcc (m ++ [(x.index, x)]) xs =
          updAcc m (x :: xs) ++
            [(x.index, (xs.filter (fun n => n.index = x.index)).getLastD x)] := by
        have hsplit : updAcc (m ++ [(x.index, x)]) xs =
            updAcc m xs ++ updAcc [(x.index, x)] xs := by
          simp only [updAcc, List.map_append]
        rw [hsplit, hLeft]
        rfl
      have hfilt2 : (x :: xs).filter (fun n => n.index ∉ keysOf m) =
          x :: xs.filter (fun n => n.index ∉ keysOf m) := by
        simp [List.filter_cons, hx]
      have ht1 : (xs.filter (fun n => n.index ∉ keysOf m)).filter
            (fun y => y.index = x.index) =
          xs.filter (fun y => y.index = x.index) := by
        rw [List.filter_filter]
        apply List.filter_congr
        intro n _
        by_cases h : n.index = x.index
        · simp [h, hx]
        · simp [h]
      have ht2 : (xs.filter (fun n => n.index ∉ keysOf m)).filter
            (fun y => y.index ≠ x.index) =
          xs.filter (fun n => n.index ∉ keysOf (m ++ [(x.index, x)])) := by
        rw [List.filter_filter, hkeys2]
        apply List.filter_congr
        intro n _
        by_cases h : n.index ∈ keysOf m
        · simp [h]
        · by_cases h2 : n.index = x.index <;> simp [h, h2]
      have hidx : ((xs.filter (fun y => y.index = x.index)).getLastD x).index =
          x.index := by
        apply getLastD_index _ _ _ _ rfl
        intro y hy
        simpa using (List.mem_filter.mp hy).2
      rw [hins, ih, hupd2, hfilt2, dedupByIndex_cons, ht1, ht2]
      simp only [List.map_cons, hidx, List.append_assoc, List.singleton_append]

theorem uniqNodes_eq_dedupByIndex (l : List EntryRec) :
    uniqNodes l = dedupByIndex l := by
  rw [uniqNodes, foldl_insertNode l []]
  have hf : l.filter (fun n => n.index ∉ keysOf ([] : List (String × EntryRec)))
      = l := by
    apply List.filter_eq_self.mpr
    intro a _
    simp [keysOf]
  rw [hf]
  simp only [updAcc, List.map_nil, List.nil_append, List.map_map]
  have hid : (Prod.snd ∘ fun n : EntryRec => (n.index, n)) = id := rfl
  rw [hid, List.map_id]

theorem getLast?_eq_getLastD {α : Type _} :
    ∀ (a : α) (l : List α), (a :: l).getLast? = some (l.getLastD a)
  | _, [] => rfl
  | _, b :: t => by
    rw [List.getLast?_cons_cons, getLast?_eq_getLastD b t, List.getLastD_cons]

theorem mem_of_mem_firstKeys (k : String) (ks : List String) :
    k ∈ firstKeys ks → k ∈ ks := by
  induction ks using firstKeys.induct with
  | case1 => simp [firstKeys_nil]
  | case2 j ks ih =>
    rw [firstKeys_cons]
    intro h
    rcases List.mem_cons.mp h with h | h
    · exact h ▸ List.mem_cons_self _ _
    · exact List.mem_cons_of_mem _ ((List.mem_filter.mp (ih h)).1)

theorem mem_firstKeys_of_mem (k : String) (ks : List String) :
    k ∈ ks → k ∈ firstKeys ks := by
  induction ks using firstKeys.induct with
  | case1 => simp
  | case2 j ks ih =>
    rw [firstKeys_cons]
    intro h
    rcases List.mem_cons.mp h with h | h
    · exact h ▸ List.mem_cons_self _ _
    · by_cases hkj : k = j
      · exact hkj ▸ List.mem_cons_self _ _
      · exact List.mem_cons_of_mem _
          (ih (List.mem_filter.mpr ⟨h, by simpa using hkj⟩))

theorem mem_firstKeys (k : String) (ks : List String) :
    k ∈ firstKeys ks ↔ k ∈ ks :=
  ⟨mem_of_mem_firstKeys k ks, mem_firstKeys_of_mem k ks⟩

theorem nodup_firstKeys (ks : List String) : (firstKeys ks).Nodup := by
  induction ks using firstKeys.induct with
  | case1 => simp [firstKeys_nil]
  | case2 k ks ih =>
    rw [firstKeys_cons]
    refine List.nodup_cons.mpr ⟨?_, ih⟩
    intro hk
    have := (List.mem_filter.mp (mem_of_mem_firstKeys _ _ hk)).2
    simp at this

theorem mem_of_mem_dedupByIndex (l : List EntryRec) :
    ∀ r ∈ dedupByIndex l, r ∈ l := by
  induction l using dedupByIndex.induct with
  | case1 => simp [dedupByIndex_nil]
  | case2 x xs ih =>
    rw [dedupByIndex_cons]
    intro r hr
    rcases List.mem_cons.mp hr with h | h
    · have hmem := List.getLastD_mem_cons
        (xs.filter (fun y => y.index = x.index)) x
      rw [← h] at hmem
      rcases List.mem_cons.mp hmem with hm | hm
      · rw [hm]
        exact List.mem_cons_self _ _
      · exact List.mem_cons_of_mem _ ((List.mem_filter.mp hm).1)
    · exact List.mem_cons_of_mem _ ((List.mem_filter.mp (ih r h)).1)

theorem map_index_dedupByIndex (l : List EntryRec) :
    (dedupByIndex l).map (fun r => r.index) =
      firstKeys (l.map (fun r => r.index)) := by
  induction l using dedupByIndex.induct with
  | case1 => simp [dedupByIndex_nil, firstKeys_nil]
  | case2 x xs ih =>
    rw [dedupByIndex_cons, List.map_cons, List.map_cons, firstKeys_cons]
    congr 1
    · exact getLastD_index _ _ _
        (fun y hy => by simpa using (List.mem_filter.mp hy).2) rfl
    · rw [ih]
      congr 1
      rw [List.filter_map]
      congr 1

theorem nodup_map_index_dedupByIndex (l : List EntryRec) :
    ((dedupByIndex l).map (fun r => r.index)).Nodup := by
  rw [map_index_dedupByIndex]
  exact nodup_firstKeys _

theorem lastWith_cons_self (x : EntryRec) (xs : List EntryRec) :
    lastWith (x :: xs) x.index =
      some ((xs.filter (fun n => n.index = x.index)).getLastD x) := by
  rw [lastWith, List.filter_cons_of_pos (by simp), getLast?_eq_getLastD]

theorem lastWith_cons_ne (x : EntryRec) (xs : List EntryRec) (k : String)
    (h : k ≠ x.index) : lastWith (x :: xs) k = lastWith xs k := by
  rw [lastWith, List.filter_cons_of_neg (by simpa using Ne.symm h)]
  rfl

theorem lastWith_filter_ne (l : List EntryRec) (k k0 : String) (h : k ≠ k0) :
    lastWith (l.filter (fun y => y.index ≠ k0)) k = lastWith l k := by
  rw [lastWith, lastWith, List.filter_filter]
  congr 1
  apply List.filter_congr
  intro n _
  by_cases hn : n.index = k
  · simp [hn, h]
  · simp [hn]

theorem lastWith_of_mem_dedupByIndex (l : List EntryRec) :
    ∀ r ∈ dedupByIndex l, lastWith l r.index = some r := by
  induction l using dedupByIndex.induct with
  | case1 => simp [dedupByIndex_nil]
  | case2 x xs ih =>
    rw [dedupByIndex_cons]
    intro r hr
    rcases List.mem_cons.mp hr with h | h
    · have hidx : r.index = x.index := by
        rw [h]
        exact getLastD_index _ _ _
          (fun y hy => by simpa using (List.mem_filter.mp hy).2) rfl
      rw [hidx, lastWith_cons_self, h]
    · have hidx : r.index ≠ x.index := by
        have hmem := mem_of_mem_dedupByIndex _ r h
        simpa using (List.mem_filter.mp hmem).2
      rw [lastWith_cons_ne x xs _ hidx, ← lastWith_filter_ne xs _ x.index hidx]
      exact ih r h

theorem lastWith_append_of_mem (a b : List EntryRec) (k : String)
    (h : k ∈ b.map (fun r => r.index)) :
    lastWith (a ++ b) k = lastWith b k := by
  rw [lastWith, lastWith, List.filter_append, List.getLast?_append]
  obtain ⟨r, hr, hrk⟩ := List.mem_map.mp h
  have hne : b.filter (fun n => n.index = k) ≠ [] :=
    List.ne_nil_of_mem (List.mem_filter.mpr ⟨hr, by simp [hrk]⟩)
  obtain ⟨v, hv⟩ := Option.ne_none_iff_exists'.mp
    (fun hnone => hne (List.getLast?_eq_none_iff.mp hnone))
  rw [hv, Option.or_some]

theorem lastWith_append_of_not_mem (a b : List EntryRec) (k : String)
    (h : k ∉ b.map (fun r => r.index)) :
    lastWith (a ++ b) k = lastWith a k := by
  have hb : b.filter (fun n => n.index = k) = [] := by
    apply List.filter_eq_nil_iff.mpr
    intro r hr
    simp only [decide_eq_true_eq]
    intro e
    exact h (List.mem_map.mpr ⟨r, hr, e⟩)
  rw [lastWith, lastWith, List.filter_append, hb, List.append_nil]

theorem lastWith_self_of_nodup (m : List EntryRec)
    (hnd : (m.map (fun r => r.index)).Nodup) :
    ∀ x ∈ m, lastWith m x.index = some x := by
  induction m with
  | nil => simp
  | cons z m' ih =>
    intro x hx
    have hz : z.index ∉ m'.map (fun r => r.index) :=
      (List.nodup_cons.mp (by simpa using hnd)).1
    rcases List.mem_cons.mp hx with h | h
    · subst h
      rw [lastWith_cons_self]
      have hfil : m'.filter (fun n => n.index = x.index) = [] := by
        apply List.filter_eq_nil_iff.mpr
        intro r hr
        simp only [decide_eq_true_eq]
        intro e
        exact hz (List.mem_map.mpr ⟨r, hr, e⟩)
      rw [hfil]
      rfl
    · have hne : x.index ≠ z.index := by
        intro e
        exact hz (e ▸ List.mem_map.mpr ⟨x, h, rfl⟩)
      rw [lastWith_cons_ne _ _ _ hne]
      exact ih (List.Nodup.of_cons (by simpa using hnd)) x h

theorem dedupByIndex_append_absorb (m : List EntryRec) :
    ∀ e : List EntryRec, (m.map (fun r => r.index)).Nodup →
      (∀ y ∈ e, y.index ∈ m.map (fun r => r.index)) →
      (∀ x ∈ m, lastWith (m ++ e) x.index = some x) →
      dedupByIndex (m ++ e) = m := by
  induction m with
  | nil =>
    intro e _ hsub _
    have he : e = [] := by
      cases e with
      | nil => rfl
      | cons y ys => exact absurd (hsub y (List.mem_cons_self _ _)) (by simp)
    rw [he]
    exact dedupByIndex_nil
  | cons x m' ih =>
    intro e hnd hsub hlast
    have hx' : x.index ∉ m'.map (fun r => r.index) :=
      (List.nodup_cons.mp (by simpa using hnd)).1
    rw [List.cons_append, dedupByIndex_cons]
    have hhead : ((m' ++ e).filter (fun y => y.index = x.index)).getLastD x
        = x := by
      have hl := hlast x (List.mem_cons_self _ _)
      rw [List.cons_append, lastWith_cons_self] at hl
      exact Option.some.inj hl
    rw [hhead]
    congr 1
    have hm' : (m' ++ e).filter (fun y => y.index ≠ x.index) =
        m' ++ e.filter (fun y => y.index ≠ x.index) := by
      rw [List.filter_append]
      congr 1
      apply List.filter_eq_self.mpr
      intro z hz
      simp only [decide_eq_true_eq]
      intro e'
      exact hx' (e' ▸ List.mem_map.mpr ⟨z, hz, rfl⟩)
    rw [hm']
    apply ih (e.filter (fun y => y.index ≠ x.index))
      (List.Nodup.of_cons (by simpa using hnd))
    · intro y hy
      have hy1 := (List.mem_filter.mp hy).1
      have hy2 : y.index ≠ x.index := by
        simpa using (List.mem_filter.mp hy).2
      have hmem := hsub y hy1
      rw [List.map_cons] at hmem
      rcases List.mem_cons.mp hmem with h | h
      · exact absurd h hy2
      · exact h
    · intro z hz
      have hzx : z.index ≠ x.index := by
        intro e'
        exact hx' (e' ▸ List.mem_map.mpr ⟨z, hz, rfl⟩)
      have hl := hlast z (List.mem_cons_of_mem _ hz)
      rw [List.cons_append, lastWith_cons_ne _ _ _ hzx] at hl
      rw [← hm', lastWith_filter_ne _ _ _ hzx]
      exact hl

theorem uniqNodes_append_self (a e : List EntryRec) :
    uniqNodes (uniqNodes (a ++ e) ++ e) = uniqNodes (a ++ e) := by
  rw [uniqNodes_eq_dedupByIndex (a ++ e),
    uniqNodes_eq_dedupByIndex (dedupByIndex (a ++ e) ++ e)]
  apply dedupByIndex_append_absorb
  · exact nodup_map_index_dedupByIndex _
  · intro y hy
    rw [map_index_dedupByIndex, mem_firstKeys, List.map_append]
    exact List.mem_append_right _ (List.mem_map.mpr ⟨y, hy, rfl⟩)
  · intro x hx
    have hlw := lastWith_of_mem_dedupByIndex (a ++ e) x hx
    by_cases hk : x.index ∈ e.map (fun r => r.index)
    · rw [lastWith_append_of_mem _ _ _ hk]
      rw [lastWith_append_of_mem a e _ hk] at hlw
      exact hlw
    · rw [lastWith_append_of_not_mem _ _ _ hk]
      exact lastWith_self_of_nodup _ (nodup_map_index_dedupByIndex _) x hx

theorem mem_map_index_uniqNodes (l : List EntryRec) (k : String) :
    k ∈ (uniqNodes l).map (fun r => r.index) ↔
      k ∈ l.map (fun r => r.index) := by
  rw [uniqNodes_eq_dedupByIndex, map_index_dedupByIndex, mem_firstKeys]

theorem transactionHandler_none (tx : TransactionStream) (s : Snapshot)
    (h : tx.meta = none) : transactionHandler tx s = s := by
  simp [transactionHandler, h]

theorem transactionHandler_reset (tx : TransactionStream) (s : Snapshot)
    (m : TxMeta) (h : tx.meta = some m)
    (hlt : s.ledgerIndex < tx.ledger_index) :
    transactionHandler tx s =
      { ledgerIndex := tx.ledger_index
        created := uniqNodes (extractCreated m)
        modified := uniqNodes (extractModified m)
        deleted := uniqNodes (extractDeleted m) } := by
  simp [transactionHandler, h, hlt]

theorem transactionHandler_keep (tx : TransactionStream) (s : Snapshot)
    (m : TxMeta) (h : tx.meta = some m)
    (hge : ¬ s.ledgerIndex < tx.ledger_index) :
    transactionHandler tx s =
      { ledgerIndex := tx.ledger_index
        created := uniqNodes (s.created ++ extractCreated m)
        modified := uniqNodes (s.modified ++ extractModified m)
        deleted := uniqNodes (s.deleted ++ extractDeleted m) } := by
  simp [transactionHandler, h, hge]

theorem nodup_map_index_uniqNodes (l : List EntryRec) :
    ((uniqNodes l).map (fun r => r.index)).Nodup := by
  rw [uniqNodes_eq_dedupByIndex]
  exact nodup_map_index_dedupByIndex l

theorem lastWith_of_mem_uniqNodes (l : List EntryRec) :
    ∀ r ∈ uniqNodes l, lastWith l r.index = some r := by
  rw [uniqNodes_eq_dedupByIndex]
  exact lastWith_of_mem_dedupByIndex l

theorem map_index_uniqNodes (l : List EntryRec) :
    (uniqNodes l).map (fun r => r.index) =
      firstKeys (l.map (fun r => r.index)) := by
  rw [uniqNodes_eq_dedupByIndex]
  exact map_index_dedupByIndex l

theorem nodup_foldl_transactionHandler (txs : List TransactionStream) :
    ∀ s : Snapshot,
      ((s.created.map (fun r => r.index)).Nodup ∧
        (s.modified.map (fun r => r.index)).Nodup ∧
        (s.deleted.map (fun r => r.index)).Nodup) →
      (((txs.foldl (fun acc tx => transactionHandler tx acc) s).created.map
          (fun r => r.index)).Nodup ∧
        ((txs.foldl (fun acc tx => transactionHandler tx acc) s).modified.map
          (fun r => r.index)).Nodup ∧
        ((txs.foldl (fun acc tx => transactionHandler tx acc) s).deleted.map
          (fun r => r.index)).Nodup) := by
  induction txs with
  | nil =>
    intro s h
    simpa using h
  | cons tx txs ih =>
    intro s h
    rw [List.foldl_cons]
    apply ih
    cases htx : tx.meta with
    | none =>
      rw [transactionHandler_none tx s htx]
      exact h
    | some m =>
      by_cases hlt : s.ledgerIndex < tx.ledger_index
      · rw [transactionHandler_reset tx s m htx hlt]
        exact ⟨nodup_map_index_uniqNodes _, nodup_map_index_uniqNodes _,
          nodup_map_index_uniqNodes _⟩
      · rw [transactionHandler_keep tx s m htx hlt]
        exact ⟨nodup_map_index_uniqNodes _, nodup_map_index_uniqNodes _,
          nodup_map_index_uniqNodes _⟩

theorem flatMap_filter_types_perm (types : List String) :
    ∀ l : List EntryRec, types.Nodup →
      (∀ x ∈ l, x.LedgerEntryType ∈ types) →
      List.Perm
        (types.flatMap (fun e => l.filter (fun n => n.LedgerEntryType = e))) l := by
  induction types with
  | nil =>
    intro l _ hall
    have hl : l = [] := by
      cases l with
      | nil => rfl
      | cons a t => exact absurd (hall a (List.mem_cons_self _ _)) (by simp)
    rw [hl]
    simp
  | cons e ts ih =>
    intro l hnd hall
    rw [List.flatMap_cons]
    have hets : e ∉ ts := (List.nodup_cons.mp hnd).1
    have hcongr : ts.flatMap (fun j => l.filter (fun n => n.LedgerEntryType = j))
        = ts.flatMap (fun j => (l.filter (fun n => n.LedgerEntryType ≠ e)).filter
            (fun n => n.LedgerEntryType = j)) := by
      rw [List.flatMap_def, List.flatMap_def]
      apply congrArg
      apply List.map_congr_left
      intro j hj
      have hje : j ≠ e := fun hcontra => hets (hcontra ▸ hj)
      rw [List.filter_filter]
      apply List.filter_congr
      intro n _
      by_cases hn : n.LedgerEntryType = j
      · simp [hn, hje]
      · simp [hn]
    rw [hcongr]
    have hperm := ih (l.filter (fun n => n.LedgerEntryType ≠ e))
      (List.Nodup.of_cons hnd) ?_
    · have hstep := List.Perm.append_left
        (l.filter (fun n => n.LedgerEntryType = e)) hperm
      apply hstep.trans
      have hne : l.filter (fun n => n.LedgerEntryType ≠ e) =
          l.filter (fun x => !(decide (x.LedgerEntryType = e))) := by
        apply List.filter_congr
        intro n _
        simp [decide_not]
      rw [hne]
      exact List.filter_append_perm _ l
    · intro x hx
      have hx1 := (List.mem_filter.mp hx).1
      have hx2 : x.LedgerEntryType ≠ e := by
        simpa using (List.mem_filter.mp hx).2
      rcases List.mem_cons.mp (hall x hx1) with h | h
      · exact absurd h hx2
      · exact h

theorem uniqNodes_absorb_nil (e : List EntryRec) :
    uniqNodes (uniqNodes e ++ e) = uniqNodes e := by
  simpa using uniqNodes_append_self [] e

/-- C1, counterexample: starting from the initial accumulator, a transaction
with carried index 5 sets `ledgerIndex` to 5, and a subsequent stale
transaction with carried index 3 then DECREASES the stored `ledgerIndex`
(to 3), because `transactionHandler` overwrites `ledgerIndex`
unconditionally — refuting the claim that a lower carried index never
decreases the stored `ledgerIndex`. -/
theorem claim1_ledgerIndex_decreases_counterexample :
    (transactionHandler ⟨3, some ⟨[]⟩⟩
        (transactionHandler ⟨5, some ⟨[]⟩⟩ initialSnapshot)).ledgerIndex <
      (transactionHandler ⟨5, some ⟨[]⟩⟩ initialSnapshot).ledgerIndex := by
  decide

/-- C1, amended: a transaction carrying metadata always overwrites the
stored `ledgerIndex` with its carried index (even a strictly lower one), so
`ledgerIndex` is non-decreasing across an update exactly when the carried
index is at least the stored one. -/
theorem claim1_ledgerIndex_overwrite (tx : TransactionStream) (s : Snapshot)
    (m : TxMeta) (hm : tx.meta = some m) :
    (transactionHandler tx s).ledgerIndex = tx.ledger_index ∧
      (s.ledgerIndex ≤ tx.ledger_index →
        s.ledgerIndex ≤ (transactionHandler tx s).ledgerIndex) := by
  have hidx : (transactionHandler tx s).ledgerIndex = tx.ledger_index := by
    by_cases hlt : s.ledgerIndex < tx.ledger_index
    · rw [transactionHandler_reset tx s m hm hlt]
    · rw [transactionHandler_keep tx s m hm hlt]
  refine ⟨hidx, fun hle => ?_⟩
  rw [hidx]
  exact hle

/-- C1, witness for the amended claim at a concrete input. -/
theorem claim1_witness :
    (transactionHandler ⟨7, some ⟨[]⟩⟩ initialSnapshot).ledgerIndex = 7 ∧
      ((initialSnapshot : Snapshot).ledgerIndex ≤ 7 →
        (initialSnapshot : Snapshot).ledgerIndex ≤
          (transactionHandler ⟨7, some ⟨[]⟩⟩ initialSnapshot).ledgerIndex) :=
  claim1_ledgerIndex_overwrite ⟨7, some ⟨[]⟩⟩ initialSnapshot ⟨[]⟩ rfl

/-- C2, counterexample: publish a snapshot via the ledger-closed handler,
then fold one more transaction into the accumulator; the snapshot observed
through the published `nodes` state CHANGES, because `setNodes(lastNodes)`
stored a live reference to the accumulator, not an immutable copy. -/
theorem claim2_live_reference_counterexample :
    nodesValue (appOnTransaction ⟨1, some ⟨[.createdNode "AccountRoot" "B"]⟩⟩
        (ledgerClosedHandler ⟨2⟩
          (appOnTransaction ⟨1, some ⟨[.createdNode "AccountRoot" "A"]⟩⟩
            initialAppState))) ≠
      nodesValue (ledgerClosedHandler ⟨2⟩
        (appOnTransaction ⟨1, some ⟨[.createdNode "AccountRoot" "A"]⟩⟩
          initialAppState)) := by
  decide

/-- C2, amended: the ledger-closed handler does not reset the accumulator
(`lastNodes` is unchanged, hence so are its `ledgerIndex` and all three
collections), and it publishes the accumulator by live reference: right
after the event the published snapshot equals the accumulator, and after a
subsequent transaction it equals the mutated accumulator rather than the
state at publication time. -/
theorem claim2_publish_live_no_reset (ledger : LedgerStream) (s : AppState)
    (tx : TransactionStream) :
    (ledgerClosedHandler ledger s).lastNodes = s.lastNodes ∧
      nodesValue (ledgerClosedHandler ledger s) = s.lastNodes ∧
      nodesValue (appOnTransaction tx (ledgerClosedHandler ledger s)) =
        transactionHandler tx s.lastNodes := by
  refine ⟨rfl, ?_, ?_⟩
  · simp [nodesValue, ledgerClosedHandler]
  · simp [nodesValue, ledgerClosedHandler, appOnTransaction]

/-- C3: folding the same transaction into the accumulator twice in a row
yields the same three collections as folding it once, for every accumulator
state and every transaction (the second fold carries the same index, so it
does not reset, and last-write-wins deduplication absorbs the repeat). -/
theorem claim3_idempotent_redelivery (tx : TransactionStream) (s : Snapshot) :
    (transactionHandler tx (transactionHandler tx s)).created =
        (transactionHandler tx s).created ∧
      (transactionHandler tx (transactionHandler tx s)).modified =
        (transactionHandler tx s).modified ∧
      (transactionHandler tx (transactionHandler tx s)).deleted =
        (transactionHandler tx s).deleted := by
  cases htx : tx.meta with
  | none =>
    simp [transactionHandler_none tx s htx]
  | some m =>
    by_cases hlt : s.ledgerIndex < tx.ledger_index
    · have h1 := transactionHandler_reset tx s m htx hlt
      have hlt2 : ¬ (transactionHandler tx s).ledgerIndex < tx.ledger_index := by
        rw [h1]
        exact lt_irrefl _
      have h2 := transactionHandler_keep tx (transactionHandler tx s) m htx hlt2
      rw [h2, h1]
      exact ⟨uniqNodes_absorb_nil _, uniqNodes_absorb_nil _,
        uniqNodes_absorb_nil _⟩
    · have h1 := transactionHandler_keep tx s m htx hlt
      have hlt2 : ¬ (transactionHandler tx s).ledgerIndex < tx.ledger_index := by
        rw [h1]
        exact lt_irrefl _
      have h2 := transactionHandler_keep tx (transactionHandler tx s) m htx hlt2
      rw [h2, h1]
      exact ⟨uniqNodes_append_self _ _, uniqNodes_append_self _ _,
        uniqNodes_append_self _ _⟩

/-- C4: from any accumulator state, a transaction carrying a strictly
greater ledger index clears all three collections before folding, so the
result holds exactly the new transaction's deduplicated effects; a second
transaction carrying that same index does not clear again — its effects are
appended to the current collections and deduplicated. -/
theorem claim4_reset_boundary (s : Snapshot) (tx tx' : TransactionStream)
    (m m' : TxMeta) (h1 : s.ledgerIndex < tx.ledger_index)
    (hm : tx.meta = some m) (h2 : tx'.ledger_index = tx.ledger_index)
    (hm' : tx'.meta = some m') :
    ((transactionHandler tx s).created = uniqNodes (extractCreated m) ∧
      (transactionHandler tx s).modified = uniqNodes (extractModified m) ∧
      (transactionHandler tx s).deleted = uniqNodes (extractDeleted m)) ∧
    ((transactionHandler tx' (transactionHandler tx s)).created =
        uniqNodes ((transactionHandler tx s).created ++ extractCreated m') ∧
      (transactionHandler tx' (transactionHandler tx s)).modified =
        uniqNodes ((transactionHandler tx s).modified ++ extractModified m') ∧
      (transactionHandler tx' (transactionHandler tx s)).deleted =
        uniqNodes ((transactionHandler tx s).deleted ++ extractDeleted m')) := by
  have hr := transactionHandler_reset tx s m hm h1
  have hlt2 : ¬ (transactionHandler tx s).ledgerIndex < tx'.ledger_index := by
    rw [hr, h2]
    exact lt_irrefl _
  have hk := transactionHandler_keep tx' (transactionHandler tx s) m' hm' hlt2
  exact ⟨⟨by rw [hr], by rw [hr], by rw [hr]⟩,
    ⟨by rw [hk], by rw [hk], by rw [hk]⟩⟩

/-- C4, witness: accumulator at index 5 with non-empty collections, a
transaction at index 6, then a second transaction also at index 6. -/
theorem claim4_witness :
    ((transactionHandler ⟨6, some ⟨[.createdNode "AccountRoot" "A"]⟩⟩
        ⟨5, [⟨"AccountRoot", "P"⟩], [⟨"RippleState", "Q"⟩], [⟨"Offer", "R"⟩]⟩).created =
          uniqNodes (extractCreated ⟨[.createdNode "AccountRoot" "A"]⟩) ∧
      (transactionHandler ⟨6, some ⟨[.createdNode "AccountRoot" "A"]⟩⟩
        ⟨5, [⟨"AccountRoot", "P"⟩], [⟨"RippleState", "Q"⟩], [⟨"Offer", "R"⟩]⟩).modified =
          uniqNodes (extractModified ⟨[.createdNode "AccountRoot" "A"]⟩) ∧
      (transactionHandler ⟨6, some ⟨[.createdNode "AccountRoot" "A"]⟩⟩
        ⟨5, [⟨"AccountRoot", "P"⟩], [⟨"RippleState", "Q"⟩], [⟨"Offer", "R"⟩]⟩).deleted =
          uniqNodes (extractDeleted ⟨[.createdNode "AccountRoot" "A"]⟩)) ∧
    ((transactionHandler ⟨6, some ⟨[.modifiedNode "AccountRoot" "A"]⟩⟩
        (transactionHandler ⟨6, some ⟨[.createdNode "AccountRoot" "A"]⟩⟩
          ⟨5, [⟨"AccountRoot", "P"⟩], [⟨"RippleState", "Q"⟩], [⟨"Offer", "R"⟩]⟩)).created =
          uniqNodes ((transactionHandler ⟨6, some ⟨[.createdNode "AccountRoot" "A"]⟩⟩
            ⟨5, [⟨"AccountRoot", "P"⟩], [⟨"RippleState", "Q"⟩], [⟨"Offer", "R"⟩]⟩).created ++
              extractCreated ⟨[.modifiedNode "AccountRoot" "A"]⟩) ∧
      (transactionHandler ⟨6, some ⟨[.modifiedNode "AccountRoot" "A"]⟩⟩
        (transactionHandler ⟨6, some ⟨[.createdNode "AccountRoot" "A"]⟩⟩
          ⟨5, [⟨"AccountRoot", "P"⟩], [⟨"RippleState", "Q"⟩], [⟨"Offer", "R"⟩]⟩)).modified =
          uniqNodes ((transactionHandler ⟨6, some ⟨[.createdNode "AccountRoot" "A"]⟩⟩
            ⟨5, [⟨"AccountRoot", "P"⟩], [⟨"RippleState", "Q"⟩], [⟨"Offer", "R"⟩]⟩).modified ++
              extractModified ⟨[.modifiedNode "AccountRoot" "A"]⟩) ∧
      (transactionHandler ⟨6, some ⟨[.modifiedNode "AccountRoot" "A"]⟩⟩
        (transactionHandler ⟨6, some ⟨[.createdNode "AccountRoot" "A"]⟩⟩
          ⟨5, [⟨"AccountRoot", "P"⟩], [⟨"RippleState", "Q"⟩], [⟨"Offer", "R"⟩]⟩)).deleted =
          uniqNodes ((transactionHandler ⟨6, some ⟨[.createdNode "AccountRoot" "A"]⟩⟩
            ⟨5, [⟨"AccountRoot", "P"⟩], [⟨"RippleState", "Q"⟩], [⟨"Offer", "R"⟩]⟩).deleted ++
              extractDeleted ⟨[.modifiedNode "AccountRoot" "A"]⟩)) :=
  claim4_reset_boundary
    ⟨5, [⟨"AccountRoot", "P"⟩], [⟨"RippleState", "Q"⟩], [⟨"Offer", "R"⟩]⟩
    ⟨6, some ⟨[.createdNode "AccountRoot" "A"]⟩⟩
    ⟨6, some ⟨[.modifiedNode "AccountRoot" "A"]⟩⟩
    ⟨[.createdNode "AccountRoot" "A"]⟩ ⟨[.modifiedNode "AccountRoot" "A"]⟩
    (by decide) rfl rfl rfl

/-- C5: a transaction carrying a strictly lower ledger index than the
stored one does not clear any collection — its effect records are still
appended into the current snapshot's collections and deduplicated. -/
theorem claim5_stale_still_appended (s : Snapshot) (tx : TransactionStream)
    (m : TxMeta) (h : tx.ledger_index < s.ledgerIndex)
    (hm : tx.meta = some m) :
    (transactionHandler tx s).created =
        uniqNodes (s.created ++ extractCreated m) ∧
      (transactionHandler tx s).modified =
        uniqNodes (s.modified ++ extractModified m) ∧
      (transactionHandler tx s).deleted =
        uniqNodes (s.deleted ++ extractDeleted m) := by
  have hk := transactionHandler_keep tx s m hm (lt_asymm h)
  exact ⟨by rw [hk], by rw [hk], by rw [hk]⟩

/-- C5, witness: a stale transaction at index 3 against an accumulator at
index 5. -/
theorem claim5_witness :
    (transactionHandler ⟨3, some ⟨[.deletedNode "Offer" "Z"]⟩⟩
        ⟨5, [⟨"AccountRoot", "P"⟩], [], []⟩).created =
          uniqNodes ([⟨"AccountRoot", "P"⟩] ++
            extractCreated ⟨[.deletedNode "Offer" "Z"]⟩) ∧
      (transactionHandler ⟨3, some ⟨[.deletedNode "Offer" "Z"]⟩⟩
        ⟨5, [⟨"AccountRoot", "P"⟩], [], []⟩).modified =
          uniqNodes ([] ++ extractModified ⟨[.deletedNode "Offer" "Z"]⟩) ∧
      (transactionHandler ⟨3, some ⟨[.deletedNode "Offer" "Z"]⟩⟩
        ⟨5, [⟨"AccountRoot", "P"⟩], [], []⟩).deleted =
          uniqNodes ([] ++ extractDeleted ⟨[.deletedNode "Offer" "Z"]⟩) :=
  claim5_stale_still_appended ⟨5, [⟨"AccountRoot", "P"⟩], [], []⟩
    ⟨3, some ⟨[.deletedNode "Offer" "Z"]⟩⟩ ⟨[.deletedNode "Offer" "Z"]⟩
    (by decide) rfl

/-- C6: the deduplication step keeps each identity exactly once (the keys
of the output have no duplicates and are exactly the input's keys), keeps
for each identity the record of its last occurrence in the input, and lists
identities in the encounter order of their first occurrences; consequently,
after any sequence of transactions folded from the initial accumulator, the
identities within each of the three collections are unique. -/
theorem claim6_dedup_characterization :
    (∀ l : List EntryRec,
      ((uniqNodes l).map (fun r => r.index)).Nodup ∧
      (∀ r ∈ uniqNodes l, lastWith l r.index = some r) ∧
      (uniqNodes l).map (fun r => r.index) =
        firstKeys (l.map (fun r => r.index)) ∧
      (∀ k : String, k ∈ (uniqNodes l).map (fun r => r.index) ↔
        k ∈ l.map (fun r => r.index))) ∧
    (∀ txs : List TransactionStream,
      (((txs.foldl (fun acc tx => transactionHandler tx acc)
          initialSnapshot).created.map (fun r => r.index)).Nodup ∧
        ((txs.foldl (fun acc tx => transactionHandler tx acc)
          initialSnapshot).modified.map (fun r => r.index)).Nodup ∧
        ((txs.foldl (fun acc tx => transactionHandler tx acc)
          initialSnapshot).deleted.map (fun r => r.index)).Nodup)) := by
  constructor
  · intro l
    exact ⟨nodup_map_index_uniqNodes l, lastWith_of_mem_uniqNodes l,
      map_index_uniqNodes l, fun k => mem_map_index_uniqNodes l k⟩
  · intro txs
    apply nodup_foldl_transactionHandler
    exact ⟨by simp [initialSnapshot], by simp [initialSnapshot],
      by simp [initialSnapshot]⟩

/-- C7: a transaction event carrying no metadata is a silent no-op: the
handler returns early, producing no effects and leaving the accumulator
(ledger index and all three collections) unchanged. -/
theorem claim7_missing_meta_noop (tx : TransactionStream) (s : Snapshot)
    (h : tx.meta = none) : transactionHandler tx s = s :=
  transactionHandler_none tx s h

/-- C7, witness: a metadata-less transaction against the initial state. -/
theorem claim7_witness :
    transactionHandler ⟨7, none⟩ initialSnapshot = initialSnapshot :=
  claim7_missing_meta_noop ⟨7, none⟩ initialSnapshot rfl

/-- C8: the classifier returns exactly the subset of each collection whose
records carry the requested entry type; an entry type present in no
collection yields three empty lists; and, over the entry types present, the
classifier's buckets partition each collection (their concatenation is a
permutation of it). -/
theorem claim8_classifier_partition :
    (∀ (snap : Snapshot) (entry : String),
      (∀ r : EntryRec, r ∈ (nodesByLedgerEntryType snap entry).created ↔
        r ∈ snap.created ∧ r.LedgerEntryType = entry) ∧
      (∀ r : EntryRec, r ∈ (nodesByLedgerEntryType snap entry).modified ↔
        r ∈ snap.modified ∧ r.LedgerEntryType = entry) ∧
      (∀ r : EntryRec, r ∈ (nodesByLedgerEntryType snap entry).deleted ↔
        r ∈ snap.deleted ∧ r.LedgerEntryType = entry) ∧
      (entry ∉ snap.created.map (fun r => r.LedgerEntryType) ∧
        entry ∉ snap.modified.map (fun r => r.LedgerEntryType) ∧
        entry ∉ snap.deleted.map (fun r => r.LedgerEntryType) →
          nodesByLedgerEntryType snap entry = ⟨[], [], []⟩)) ∧
    (∀ snap : Snapshot,
      List.Perm
        (((snap.created.map (fun r => r.LedgerEntryType)).dedup).flatMap
          (fun e => (nodesByLedgerEntryType snap e).created)) snap.created ∧
      List.Perm
        (((snap.modified.map (fun r => r.LedgerEntryType)).dedup).flatMap
          (fun e => (nodesByLedgerEntryType snap e).modified)) snap.modified ∧
      List.Perm
        (((snap.deleted.map (fun r => r.LedgerEntryType)).dedup).flatMap
          (fun e => (nodesByLedgerEntryType snap e).deleted)) snap.deleted) := by
  constructor
  · intro snap entry
    refine ⟨?_, ?_, ?_, ?_⟩
    · intro r
      simp [nodesByLedgerEntryType, List.mem_filter]
    · intro r
      simp [nodesByLedgerEntryType, List.mem_filter]
    · intro r
      simp [nodesByLedgerEntryType, List.mem_filter]
    · rintro ⟨h1, h2, h3⟩
      simp only [nodesByLedgerEntryType, EffectTriple.mk.injEq]
      refine ⟨?_, ?_, ?_⟩
      · apply List.filter_eq_nil_iff.mpr
        intro a ha
        simp only [decide_eq_true_eq]
        intro e
        exact h1 (List.mem_map.mpr ⟨a, ha, e⟩)
      · apply List.filter_eq_nil_iff.mpr
        intro a ha
        simp only [decide_eq_true_eq]
        intro e
        exact h2 (List.mem_map.mpr ⟨a, ha, e⟩)
      · apply List.filter_eq_nil_iff.mpr
        intro a ha
        simp only [decide_eq_true_eq]
        intro e
        exact h3 (List.mem_map.mpr ⟨a, ha, e⟩)
  · intro snap
    refine ⟨?_, ?_, ?_⟩
    · exact flatMap_filter_types_perm _ snap.created (List.nodup_dedup _)
        (fun x hx => List.mem_dedup.mpr (List.mem_map.mpr ⟨x, hx, rfl⟩))
    · exact flatMap_filter_types_perm _ snap.modified (List.nodup_dedup _)
        (fun x hx => List.mem_dedup.mpr (List.mem_map.mpr ⟨x, hx, rfl⟩))
    · exact flatMap_filter_types_perm _ snap.deleted (List.nodup_dedup _)
        (fun x hx => List.mem_dedup.mpr (List.mem_map.mpr ⟨x, hx, rfl⟩))

/-- C9: deduplication never merges across the three kind-buckets: within
one ledger (no reset), an identity present among the created records (old
or newly extracted) and among the modified records stays present in both
the created and the modified collections after folding and deduplication. -/
theorem claim9_no_cross_kind_merge (s : Snapshot) (tx : TransactionStream)
    (m : TxMeta) (k : String) (hm : tx.meta = some m)
    (hsame : ¬ s.ledgerIndex < tx.ledger_index)
    (hc : k ∈ (s.created ++ extractCreated m).map (fun r => r.index))
    (hmo : k ∈ (s.modified ++ extractModified m).map (fun r => r.index)) :
    k ∈ (transactionHandler tx s).created.map (fun r => r.index) ∧
      k ∈ (transactionHandler tx s).modified.map (fun r => r.index) := by
  have hk := transactionHandler_keep tx s m hm hsame
  constructor
  · rw [hk]
    exact (mem_map_index_uniqNodes _ k).mpr hc
  · rw [hk]
    exact (mem_map_index_uniqNodes _ k).mpr hmo

/-- C9, witness: identity `X` created earlier in the same ledger and
modified by the next transaction remains in both collections. -/
theorem claim9_witness :
    "X" ∈ (transactionHandler ⟨10, some ⟨[.modifiedNode "AccountRoot" "X"]⟩⟩
        ⟨10, [⟨"AccountRoot", "X"⟩], [], []⟩).created.map (fun r => r.index) ∧
      "X" ∈ (transactionHandler ⟨10, some ⟨[.modifiedNode "AccountRoot" "X"]⟩⟩
        ⟨10, [⟨"AccountRoot", "X"⟩], [], []⟩).modified.map (fun r => r.index) :=
  claim9_no_cross_kind_merge ⟨10, [⟨"AccountRoot", "X"⟩], [], []⟩
    ⟨10, some ⟨[.modifiedNode "AccountRoot" "X"]⟩⟩
    ⟨[.modifiedNode "AccountRoot" "X"]⟩ "X" rfl (by decide) (by decide)
    (by decide)

/-- C10: a ledger-closed event carrying reported index `L` (the index of
the newly-open ledger) publishes `L - 1` as the closed-ledger index. -/
theorem claim10_closed_index_minus_one (ledger : LedgerStream)
    (s : AppState) :
    (ledgerClosedHandler ledger s).ledgerIndex =
      some (ledger.ledger_index - 1) := rfl

end LedgerViz
